import Mathlib

/-!
Verification development for the LOREM stabilized local-explanation pipeline
(`src/lore_sa/lorem.py`).

The pipeline is shallowly embedded: records are feature vectors over `ℚ`,
external collaborators (black box, surrogate/merged tree, encoder/decoder,
discretizer, distance metric, kernel) are function parameters, and the
control/data flow of `explain_instance_stable`, `__calculate_weights__`,
the exemplar selectors and `explain_set_instances_stable` is translated
branch by branch from the source.  Python runtime failures that the control
flow can reach (reading an unbound variable, `np.concatenate` on `None`
entries or on an empty list, an explicit `raise`) are modelled with
`Except`.  The embedding fixes `single=False` (the default of
`explain_instance_stable`; the `single=True` paths are not exercised by any
claim) and models `np.nan_to_num` as the identity, since `ℚ` has no NaN.
-/

namespace LoreSa

/-- A record (one row of a neighborhood matrix): a feature vector over `ℚ`. -/
abbrev Rec := List ℚ

/-- The merge mode selected by the `binary` constructor argument:
`self.binary` is one of the strings handled at lines 243, 264 and 293 of
`lorem.py`, or falsy (`False`), which selects the default n-ary merge. -/
inductive MergeMode
  | fromBB | fromDTs | fromNari | nary
deriving DecidableEq

/-- Configuration of one `explain_instance_stable` call: the constructor
flags consulted by the method (`multi_label`, `encdec`, `discretize`,
`binary`, `extreme_fidelity`) plus the call argument `use_weights`. -/
structure LConfig where
  multiLabel : Bool
  encdec : Bool
  useWeights : Bool
  hasDiscretizer : Bool
  mode : MergeMode
  extremeFidelity : Bool
deriving DecidableEq

/-- Python-level failures reachable from `explain_instance_stable`:
a generic `raise Exception` (multi-label guard), a `NameError` from reading
a variable that was never assigned, the `TypeError`/`ValueError` raised by
`np.concatenate` on `None` entries or on an empty list, and the explicit
extreme-fidelity `raise Exception(...)` at line 304. -/
inductive PyErr
  | exceptionRaised | nameError | typeError | valueError | fidelityMismatch
deriving DecidableEq

/-- The external collaborators of the pipeline, as function parameters:
`bb` is the black box single-record prediction, `superT` the prediction
function of the (merged/fitted) surrogate tree, `enc`/`dec` the
encoder/decoder, `discr` the fitted discretizer's `transform`, and
`kernelQ`/`distQ` the kernel and record-distance metric used by
`__calculate_weights__` (modelled over `ℚ`; the claims about the pipeline
depend only on the weight values, and the real-valued default kernel is
treated separately below). -/
structure LOracles where
  bb : Rec → ℕ
  superT : Rec → ℕ
  enc : Rec → ℕ → Rec
  dec : List Rec → List Rec
  discr : List Rec → List Rec
  kernelQ : ℚ → ℚ
  distQ : Rec → Rec → ℚ

/-- One surrogate-fit event: the data matrix and labels passed to
`learn_local_decision_tree`. -/
structure FitEvent where
  data : List Rec
  labels : List ℕ
deriving DecidableEq

/-- Trace of an `explain_instance_stable` run: the surrogate fits performed,
and the data, labels and sample weights that the fidelity score was
computed on. -/
structure ExpTrace where
  fits : List FitEvent
  scoredZ : List Rec
  scoredYb : List ℕ
  scoredW : Option (List ℚ)
deriving DecidableEq

/-- The fields of the returned `Explanation` object that the claims refer
to: `exp.bb_pred`, `exp.dt_pred` and `exp.fidelity` (lines 320, 321, 326). -/
structure Explanation where
  bb_pred : ℕ
  dt_pred : ℕ
  fidelity : ℚ
deriving DecidableEq

/-- Global minimum of a neighborhood matrix (`np.min(Z)`); 0 on an empty
matrix (the source never calls it on one). -/
def minZ (Z : List Rec) : ℚ := Z.flatten.foldr min (Z.flatten.headD 0)

/-- Global maximum of a neighborhood matrix (`np.max(Z)`). -/
def maxZ (Z : List Rec) : ℚ := Z.flatten.foldr max (Z.flatten.headD 0)

/-- Entrywise min-max normalization `(Z - np.min(Z)) / (np.max(Z) - np.min(Z))`
from line 121 of `lorem.py`. -/
def normalizeZ (Z : List Rec) : List Rec :=
  Z.map (fun r => r.map (fun v => (v - minZ Z) / (maxZ Z - minZ Z)))

/-- Kernel values of the distances from every row of `Z` to row 0
(`cdist(Z, Z[0].reshape(1, -1), metric).ravel()` followed by the kernel). -/
def raw_weights (kernel : α → β) (dist : Rec → Rec → α) (Z : List Rec) : List β :=
  (Z.map (fun zr => dist zr (Z.headD []))).map kernel

/-- The same computation on the min-max normalized matrix. -/
def normalized_weights (kernel : α → β) (dist : Rec → Rec → α) (Z : List Rec) : List β :=
  raw_weights kernel dist (normalizeZ Z)

/-- `LOREM.__calculate_weights__` (lines 119-126): normalize before the
distance computation exactly when `np.max(Z) != 1 and np.min(Z) != 0`,
otherwise use raw distances. -/
def calculate_weights (kernel : α → β) (dist : Rec → Rec → α) (Z : List Rec) : List β :=
  if maxZ Z ≠ 1 ∧ minZ Z ≠ 0 then normalized_weights kernel dist Z
  else raw_weights kernel dist Z

/-- `sklearn.metrics.accuracy_score(ytrue, ypred)`: the fraction of
positions where the two label vectors agree. -/
def accuracy_score (ytrue ypred : List ℕ) : ℚ :=
  (((ytrue.zip ypred).filter (fun p => decide (p.1 = p.2))).length : ℚ) / (ytrue.length : ℚ)

/-- Total sample weight of the agreeing positions,
`sum(w[i] * (ytrue[i] == ypred[i]))`. -/
def matchWeight : List ℚ → List ℕ → List ℕ → ℚ
  | w :: ws, a :: ta, b :: tb => (if a = b then w else 0) + matchWeight ws ta tb
  | _, _, _ => 0

/-- `accuracy_score(ytrue, ypred, sample_weight=w)`:
`np.average(ytrue == ypred, weights=w)`. -/
def weighted_score (w : List ℚ) (ytrue ypred : List ℕ) : ℚ :=
  matchWeight w ytrue ypred / w.sum

/-- `tree.score(Z, Yb, sample_weight)`: plain agreement rate when the
sample weight is `None`, weighted agreement rate otherwise. -/
def score : Option (List ℚ) → List ℕ → List ℕ → ℚ
  | none, ytrue, ypred => accuracy_score ytrue ypred
  | some w, ytrue, ypred => weighted_score w ytrue ypred

/-- `np.concatenate(l)`: raises `ValueError` on an empty argument list. -/
def npConcat (l : List (List α)) : Except PyErr (List α) :=
  if l.isEmpty then .error .valueError else .ok l.flatten

/-- `np.concatenate` over a list of per-run weight vectors (line 285):
raises on an empty list, and raises `TypeError` when any entry is `None`
(which is what `weights_list` holds when `use_weights` is false). -/
def npConcatW (l : List (Option (List ℚ))) : Except PyErr (List ℚ) :=
  if l.isEmpty then .error .valueError
  else match l.mapM id with
    | some ws => .ok ws.flatten
    | none => .error .typeError

/-- Reading the Python loop variable `Z` (or `Yb`) after a `for` loop:
it holds the last element, and reading it when the loop body never ran
raises `NameError`. -/
def lastOrE (l : List α) : Except PyErr α :=
  match l.getLast? with
  | some a => .ok a
  | none => .error .nameError

/-- The extreme-fidelity gate at lines 301-304: only reached in the n-ary
and `binary_from_nari` branches.  `yOpt` is the variable `y`, assigned only
on the encoder path (line 177); reading it unassigned is a `NameError`.
On a mismatch the method raises and no `Explanation` is produced. -/
def extremeGate (cfg : LConfig) (o : LOracles) (yOpt : Option ℕ) (xEnc : Rec)
    (res : Explanation × ExpTrace) : Except PyErr (Explanation × ExpTrace) :=
  if cfg.extremeFidelity then
    match yOpt with
    | none => .error .nameError
    | some y => if o.superT xEnc ≠ y then .error .fidelityMismatch else .ok res
  else .ok res

/-- `LOREM.explain_instance_stable` (lines 155-349), restricted to
`single=False`, as a function of the generated neighborhoods `Z_list`
(the output of `multi_generate`).  Mirrors, in order: the multi-label
guard, instance encoding (which assigns `y`), per-run decoding/labeling,
the discretizer block, and the four merge-mode branches with their
surrogate fits, fidelity computation and extreme-fidelity gate.  In the
`fromBB` branch without a discretizer, `Z` and `Yb` are the stale loop
variables holding the last neighborhood and its labels; with a
discretizer they are the pooled (pre-transform) data (lines 232-233).
In the `fromNari` branch `Yb` is overwritten with the tree's own
predictions (line 295) before scoring. -/
def explain_instance_stable (cfg : LConfig) (o : LOracles) (x : Rec)
    (Z_list : List (List Rec)) : Except PyErr (Explanation × ExpTrace) :=
  if cfg.multiLabel then .error .exceptionRaised else
  let yOpt : Option ℕ := if cfg.encdec then some (o.bb x) else none
  let xEnc : Rec := if cfg.encdec then o.enc x (o.bb x) else x
  let ZdList : List (List Rec) := if cfg.encdec then Z_list.map o.dec else Z_list
  let Yb_list : List (List ℕ) := ZdList.map (fun Z => Z.map o.bb)
  let Z_list2 : List (List Rec) := if cfg.hasDiscretizer then Z_list.map o.discr else Z_list
  let runFits : List FitEvent := (Z_list2.zip Yb_list).map (fun p => ⟨p.1, p.2⟩)
  match cfg.mode with
  | .fromBB =>
    match (if cfg.hasDiscretizer then npConcat Z_list else lastOrE Z_list),
          (if cfg.hasDiscretizer then npConcat Yb_list else lastOrE Yb_list) with
    | .ok Zc, .ok Ybc =>
      let w : Option (List ℚ) :=
        if cfg.useWeights then some (calculate_weights o.kernelQ o.distQ Zc) else none
      .ok (⟨Ybc.headD 0, (Zc.map o.superT).headD 0, score w Ybc (Zc.map o.superT)⟩,
           ⟨[⟨Zc, Ybc⟩], Zc, Ybc, w⟩)
    | .error e, _ => .error e
    | .ok _, .error e => .error e
  | .fromDTs =>
    match npConcat Z_list2, npConcat Yb_list with
    | .ok Zp, .ok Ybp =>
      let w : Option (List ℚ) :=
        if cfg.useWeights then some (calculate_weights o.kernelQ o.distQ Zp) else none
      .ok (⟨Ybp.headD 0, (Zp.map o.superT).headD 0, score w Ybp (Zp.map o.superT)⟩,
           ⟨runFits ++ [⟨Zp, Ybp⟩], Zp, Ybp, w⟩)
    | .error e, _ => .error e
    | .ok _, .error e => .error e
  | .fromNari =>
    match npConcat Z_list2, npConcat Yb_list,
          npConcatW (Z_list2.map (fun Zl =>
            if cfg.useWeights then some (calculate_weights o.kernelQ o.distQ Zl) else none)) with
    | .ok Zp, .ok _Ybp, .ok wcat =>
      let Yb2 : List ℕ := Zp.map o.superT
      extremeGate cfg o yOpt xEnc
        (⟨Yb2.headD 0, (Zp.map o.superT).headD 0, score (some wcat) Yb2 (Zp.map o.superT)⟩,
         ⟨runFits, Zp, Yb2, some wcat⟩)
    | .error e, _, _ => .error e
    | .ok _, .error e, _ => .error e
    | .ok _, .ok _, .error e => .error e
  | .nary =>
    match npConcat Z_list2, npConcat Yb_list,
          npConcatW (Z_list2.map (fun Zl =>
            if cfg.useWeights then some (calculate_weights o.kernelQ o.distQ Zl) else none)) with
    | .ok Zp, .ok Ybp, .ok _wcat =>
      extremeGate cfg o yOpt xEnc
        (⟨Ybp.headD 0, (Zp.map o.superT).headD 0, score none Ybp (Zp.map o.superT)⟩,
         ⟨runFits, Zp, Ybp, none⟩)
    | .error e, _, _ => .error e
    | .ok _, .error e, _ => .error e
    | .ok _, .ok _, .error e => .error e

/-- `Except` success test (the call produced an `Explanation`). -/
def isOkE : Except ε α → Bool
  | .ok _ => true
  | .error _ => false

instance [DecidableEq ε] [DecidableEq α] : DecidableEq (Except ε α) := fun a b =>
  match a, b with
  | .ok x, .ok y =>
    if h : x = y then .isTrue (by rw [h]) else .isFalse (by simp [h])
  | .error x, .error y =>
    if h : x = y then .isTrue (by rw [h]) else .isFalse (by simp [h])
  | .ok _, .error _ => .isFalse (by simp)
  | .error _, .ok _ => .isFalse (by simp)

/-- Squared Euclidean distance between two records.  The selectors rank by
Euclidean distance (`cdist(..., metric='euclidean')`); ranking by the
squared distance is the same ranking, and keeps the model over `ℚ`. -/
def sqdist (x r : Rec) : ℚ := ((x.zip r).map (fun p => (p.1 - p.2) ^ 2)).sum

/-- Records sorted by ascending (squared) Euclidean distance to `x`
(`distance.argsort()` followed by indexing).  A stable sort; `np.argsort`
leaves ties unspecified, and every statement below compares lists produced
by this same sort, so the tie policy cancels out. -/
def sortByDist (x : Rec) (vals : List Rec) : List Rec :=
  vals.insertionSort (fun a b => sqdist x a ≤ sqdist x b)

/-- `LOREM.get_exemplars_cexemplars_binary` (lines 356-418).  `dt_apply` is
`dt.apply` restricted to one record (leaf id), `K` the reference population
in the tree's input space.  The `np.where`/`np.delete` pair at lines
380-384 removes exactly the rows equal to `x`.  The `if/elif/else` at lines
386-402 returns in every branch, so lines 404-418 are unreachable: whenever
the exemplar partition is non-empty the method returns all its exemplars
sorted by distance and `None` for the counter-exemplars, ignoring `n`. -/
def get_exemplars_cexemplars_binary (dt_apply : Rec → ℕ) (K : List Rec) (x : Rec)
    (n : ℕ) : Option (List Rec) × Option (List Rec) :=
  let _ := n
  let leave_id_x := dt_apply x
  let exemplar_vals0 := K.filter (fun r => decide (dt_apply r = leave_id_x))
  let cexemplar_vals := K.filter (fun r => decide (dt_apply r ≠ leave_id_x))
  let exemplar_vals := exemplar_vals0.filter (fun r => decide (r ≠ x))
  if exemplar_vals.length = 0 ∧ cexemplar_vals.length = 0 then (none, none)
  else if exemplar_vals.length = 0 then (none, some (sortByDist x cexemplar_vals))
  else (some (sortByDist x exemplar_vals), none)

/-- `LOREM.get_exemplars_cexemplars_supert` (lines 420-470): same
partitioning and instance removal, then the symmetric cap — when either
partition has fewer than `n` members, `n` becomes the smaller partition's
size — and the top `n` of each partition by ascending distance. -/
def get_exemplars_cexemplars_supert (dt_apply : Rec → ℕ) (K : List Rec) (x : Rec)
    (n : ℕ) : List Rec × List Rec :=
  let leave_id_x := dt_apply x
  let exemplar_vals0 := K.filter (fun r => decide (dt_apply r = leave_id_x))
  let cexemplar_vals := K.filter (fun r => decide (dt_apply r ≠ leave_id_x))
  let exemplar_vals := exemplar_vals0.filter (fun r => decide (r ≠ x))
  let n2 := if exemplar_vals.length < n ∨ cexemplar_vals.length < n then
              min cexemplar_vals.length exemplar_vals.length else n
  ((sortByDist x exemplar_vals).take n2, (sortByDist x cexemplar_vals).take n2)

/-- `items_for_worker = math.ceil(len(X) / float(n_workers))` (line 475),
in exact arithmetic: the ceiling of `N / W`. -/
def items_for_worker (N W : ℕ) : ℕ := (N + W - 1) / W

/-- The dispatch loop of `explain_set_instances_stable` (lines 482-494):
each iteration takes slice bounds `(start, end)`, spawns a worker on
`X[start:end]`, and breaks when `end > len(X) - 1`; otherwise the next
iteration starts at `end` with `end + items`.  `fuel` is the number of
loop iterations left (`n_workers` at the top). -/
def dispatch_loop (N items : ℕ) : ℕ → ℕ → List (ℕ × ℕ)
  | 0, _ => []
  | fuel + 1, start =>
    (start, start + items) ::
      (if (N : ℤ) - 1 < ((start + items : ℕ) : ℤ) then []
       else dispatch_loop N items fuel (start + items))

/-- The slice bounds dispatched by `explain_set_instances_stable` over `N`
instances and `W` workers. -/
def dispatch_chunks (N W : ℕ) : List (ℕ × ℕ) :=
  dispatch_loop N (items_for_worker N W) W 0

/-- Number of instances in the slice `X[start:end]` for a chunk `(start, end)`
(Python slicing clamps `end` at `N`). -/
def chunk_size (N : ℕ) (p : ℕ × ℕ) : ℕ := min p.2 N - p.1

/-- Number of worker processes spawned by `explain_set_instances_stable`:
one per dispatched chunk. -/
def spawned_count (N W : ℕ) : ℕ := (dispatch_chunks N W).length

/-- The worker indices joined by the join loop at lines 497-498: `workers`
is set to `n_workers - 1` at the (always taken) break, so the loop runs
over `range(0, W - 1)`; an index with no corresponding spawned process
raises `IndexError`, which stops the loop — `takeWhile` models the joins
completed before that. -/
def joined_workers (N W : ℕ) : List ℕ :=
  (List.range (W - 1)).takeWhile (fun i => decide (i < spawned_count N W))

/-- `default_kernel(d, kernel_width) = np.sqrt(np.exp(-(d ** 2) / kernel_width ** 2))`
(lines 39-40). -/
noncomputable def default_kernel (d kernel_width : ℝ) : ℝ :=
  Real.sqrt (Real.exp (-(d ^ 2) / kernel_width ^ 2))

/-- The default kernel width `np.sqrt(len(self.feature_names)) * .75`
(line 110), as a function of the number of features. -/
noncomputable def default_kernel_width (nFeatures : ℕ) : ℝ :=
  Real.sqrt nFeatures * 0.75

/-- Spec-side predicate (from the wording of the claim about
`__calculate_weights__`): normalization may be skipped exactly when every
feature value already lies in `[0, 1]` and the values 0 and 1 both occur,
i.e. `min(Z) = 0` and `max(Z) = 1`. -/
def spec_skip_normalization (Z : List Rec) : Prop :=
  (∀ v ∈ Z.flatten, 0 ≤ v ∧ v ≤ 1) ∧ minZ Z = 0 ∧ maxZ Z = 1

/-- Concrete collaborators whose surrogate tree disagrees with the black
box everywhere: the black box labels every record 0, the tree predicts 1. -/
def oMismatch : LOracles :=
  ⟨fun _ => 0, fun _ => 1, fun r _ => r, id, id, fun _ => 1, fun _ _ => 0⟩

/-- Concrete collaborators whose surrogate tree agrees with the black box
everywhere (both constantly 0). -/
def oAgree : LOracles :=
  ⟨fun _ => 0, fun _ => 0, fun r _ => r, id, id, fun _ => 1, fun _ _ => 0⟩

theorem accuracy_score_nonneg (ytrue ypred : List ℕ) : 0 ≤ accuracy_score ytrue ypred :=
  div_nonneg (Nat.cast_nonneg _) (Nat.cast_nonneg _)

theorem accuracy_score_le_one (ytrue ypred : List ℕ) : accuracy_score ytrue ypred ≤ 1 := by
  apply div_le_one_of_le₀ _ (Nat.cast_nonneg _)
  exact_mod_cast le_trans (List.length_filter_le _ _)
    (by rw [List.length_zip]; exact min_le_left _ _)

theorem accuracy_score_eq_one_iff (ytrue ypred : List ℕ) (hne : ytrue ≠ [])
    (hl : ytrue.length ≤ ypred.length) :
    accuracy_score ytrue ypred = 1 ↔ ∀ p ∈ ytrue.zip ypred, p.1 = p.2 := by
  have hz : (ytrue.zip ypred).length = ytrue.length := by
    rw [List.length_zip]; exact min_eq_left hl
  have hpos : (ytrue.length : ℚ) ≠ 0 := by
    exact_mod_cast (List.length_pos.mpr hne).ne'
  rw [accuracy_score, div_eq_one_iff_eq hpos, Nat.cast_inj]
  constructor
  · intro h p hp
    have hlen : ((ytrue.zip ypred).filter (fun p => decide (p.1 = p.2))).length
        = (ytrue.zip ypred).length := h.trans hz.symm
    have heq := List.Sublist.eq_of_length (List.filter_sublist _) hlen
    simpa using List.filter_eq_self.mp heq p hp
  · intro h
    have heq : (ytrue.zip ypred).filter (fun p => decide (p.1 = p.2)) = ytrue.zip ypred :=
      List.filter_eq_self.mpr (fun p hp => by simpa using h p hp)
    rw [heq, hz]

theorem matchWeight_nonneg : ∀ (w : List ℚ) (a b : List ℕ),
    (∀ x ∈ w, 0 ≤ x) → 0 ≤ matchWeight w a b
  | [], a, b, _ => by cases a <;> cases b <;> simp [matchWeight]
  | _ :: _, [], b, _ => by cases b <;> simp [matchWeight]
  | _ :: _, _ :: _, [], _ => by simp [matchWeight]
  | w :: ws, a :: ta, b :: tb, hw => by
    have h1 := matchWeight_nonneg ws ta tb (fun x hx => hw x (List.mem_cons_of_mem _ hx))
    have h2 : (0 : ℚ) ≤ w := hw w (List.mem_cons_self _ _)
    simp only [matchWeight]
    have : (0 : ℚ) ≤ if a = b then w else 0 := by split <;> simp [h2]
    linarith

theorem matchWeight_le_sum : ∀ (w : List ℚ) (a b : List ℕ),
    (∀ x ∈ w, 0 ≤ x) → matchWeight w a b ≤ w.sum
  | [], a, b, _ => by cases a <;> cases b <;> simp [matchWeight]
  | w :: ws, [], b, hw => by
    cases b <;> simp [matchWeight] <;>
      exact List.sum_nonneg (fun x hx => hw x (List.mem_cons_of_mem _ hx)) |>.trans
        (by have := hw w (List.mem_cons_self _ _); linarith)
  | w :: ws, _ :: _, [], hw => by
    simp only [matchWeight, List.sum_cons]
    have h1 : (0 : ℚ) ≤ List.sum ws :=
      List.sum_nonneg (fun x hx => hw x (List.mem_cons_of_mem _ hx))
    have h2 : (0 : ℚ) ≤ w := hw w (List.mem_cons_self _ _)
    linarith
  | w :: ws, a :: ta, b :: tb, hw => by
    have h1 := matchWeight_le_sum ws ta tb (fun x hx => hw x (List.mem_cons_of_mem _ hx))
    have h2 : (0 : ℚ) ≤ w := hw w (List.mem_cons_self _ _)
    simp only [matchWeight, List.sum_cons]
    have : (if a = b then w else 0) ≤ w := by split <;> simp [h2]
    linarith

theorem matchWeight_eq_sum : ∀ (w : List ℚ) (a b : List ℕ),
    w.length = a.length → a.length = b.length →
    (∀ p ∈ a.zip b, p.1 = p.2) → matchWeight w a b = w.sum
  | [], [], [], _, _, _ => by simp [matchWeight]
  | w :: ws, a :: ta, b :: tb, h1, h2, hall => by
    have hab : a = b := hall (a, b) (by simp)
    have := matchWeight_eq_sum ws ta tb (by simpa using h1) (by simpa using h2)
      (fun p hp => hall p (List.mem_cons_of_mem _ hp))
    simp [matchWeight, hab, this]

theorem pairs_of_matchWeight_eq_sum : ∀ (w : List ℚ) (a b : List ℕ),
    (∀ x ∈ w, 0 < x) → w.length = a.length → a.length = b.length →
    matchWeight w a b = w.sum → ∀ p ∈ a.zip b, p.1 = p.2
  | _, [], _, _, _, _, _ => by simp
  | _, _ :: _, [], _, _, _, _ => by simp
  | [], a :: ta, _ :: _, _, h1, _, _ => by simp at h1
  | w :: ws, a :: ta, b :: tb, hw, h1, h2, heq => by
    have hnn : ∀ x ∈ ws, (0 : ℚ) ≤ x :=
      fun x hx => (hw x (List.mem_cons_of_mem _ hx)).le
    have hle := matchWeight_le_sum ws ta tb hnn
    have hwpos : (0 : ℚ) < w := hw w (List.mem_cons_self _ _)
    simp only [matchWeight, List.sum_cons] at heq
    by_cases hab : a = b
    · have hrec : matchWeight ws ta tb = ws.sum := by
        rw [if_pos hab] at heq; linarith
      intro p hp
      rcases List.mem_cons.mp hp with h | h
      · simp [h, hab]
      · exact pairs_of_matchWeight_eq_sum ws ta tb
          (fun x hx => hw x (List.mem_cons_of_mem _ hx))
          (by simpa using h1) (by simpa using h2) hrec p h
    · rw [if_neg hab] at heq
      linarith

theorem weighted_score_nonneg (w : List ℚ) (a b : List ℕ) (hw : ∀ x ∈ w, 0 ≤ x) :
    0 ≤ weighted_score w a b :=
  div_nonneg (matchWeight_nonneg w a b hw) (List.sum_nonneg hw)

theorem weighted_score_le_one (w : List ℚ) (a b : List ℕ) (hw : ∀ x ∈ w, 0 ≤ x) :
    weighted_score w a b ≤ 1 :=
  div_le_one_of_le₀ (matchWeight_le_sum w a b hw) (List.sum_nonneg hw)

theorem weighted_score_eq_one_iff (w : List ℚ) (a b : List ℕ)
    (hw : ∀ x ∈ w, 0 < x) (hne : w ≠ [])
    (h1 : w.length = a.length) (h2 : a.length = b.length) :
    weighted_score w a b = 1 ↔ ∀ p ∈ a.zip b, p.1 = p.2 := by
  have hsum : 0 < w.sum := List.sum_pos w hw hne
  rw [weighted_score, div_eq_one_iff_eq hsum.ne']
  constructor
  · exact fun h => pairs_of_matchWeight_eq_sum w a b hw h1 h2 h
  · exact fun h => matchWeight_eq_sum w a b h1 h2 h

theorem zip_self_eq (l : List ℕ) : ∀ p ∈ l.zip l, p.1 = p.2 := by
  induction l with
  | nil => simp
  | cons a t ih =>
    intro p hp
    rcases List.mem_cons.mp hp with h | h
    · simp [h]
    · exact ih p h

theorem extremeGate_ok {cfg : LConfig} {o : LOracles} {yOpt : Option ℕ} {xEnc : Rec}
    {res r : Explanation × ExpTrace}
    (h : extremeGate cfg o yOpt xEnc res = .ok r) : r = res := by
  unfold extremeGate at h
  split at h
  · cases yOpt with
    | none => simp at h
    | some y =>
      simp only at h
      split at h
      · simp at h
      · simpa using h.symm
  · simpa using h.symm

theorem explain_ok_inv {cfg : LConfig} {o : LOracles} {x : Rec} {Z_list : List (List Rec)}
    {e : Explanation} {tr : ExpTrace}
    (h : explain_instance_stable cfg o x Z_list = .ok (e, tr)) :
    e.fidelity = score tr.scoredW tr.scoredYb (tr.scoredZ.map o.superT)
    ∧ (cfg.mode = .fromNari → tr.scoredYb = tr.scoredZ.map o.superT ∧ tr.scoredW ≠ none)
    ∧ (cfg.mode = .nary → tr.scoredW = none) := by
  obtain ⟨ml, ed, uw, hd, mode, ef⟩ := cfg
  simp only [explain_instance_stable] at h
  split at h
  · exact absurd h (by simp)
  cases mode with
  | fromBB =>
    simp only at h
    split at h
    · simp only [Except.ok.injEq, Prod.mk.injEq] at h
      obtain ⟨he, ht⟩ := h
      subst he; subst ht
      refine ⟨rfl, ?_, ?_⟩ <;> intro hmode <;> simp at hmode
    · simp at h
    · simp at h
  | fromDTs =>
    simp only at h
    split at h
    · simp only [Except.ok.injEq, Prod.mk.injEq] at h
      obtain ⟨he, ht⟩ := h
      subst he; subst ht
      refine ⟨rfl, ?_, ?_⟩ <;> intro hmode <;> simp at hmode
    · simp at h
    · simp at h
  | fromNari =>
    simp only at h
    split at h
    · have := extremeGate_ok h
      obtain ⟨he, ht⟩ := Prod.mk.injEq .. ▸ this
      subst he; subst ht
      exact ⟨rfl, fun _ => ⟨rfl, by simp⟩, fun hmode => by simp at hmode⟩
    · simp at h
    · simp at h
    · simp at h
  | nary =>
    simp only at h
    split at h
    · have := extremeGate_ok h
      obtain ⟨he, ht⟩ := Prod.mk.injEq .. ▸ this
      subst he; subst ht
      exact ⟨rfl, fun hmode => by simp at hmode, fun _ => rfl⟩
    · simp at h
    · simp at h
    · simp at h

theorem npConcat_ok {l : List (List α)} {v : List α} (h : npConcat l = .ok v) :
    v = l.flatten := by
  unfold npConcat at h
  split at h
  · simp at h
  · simpa using h.symm

theorem npConcat_error {l : List (List α)} {e : PyErr} (h : npConcat l = .error e) :
    e = .valueError := by
  unfold npConcat at h
  split at h
  · simpa using h.symm
  · simp at h

theorem npConcat_ne_empty (l : List (List α)) (hne : l ≠ []) :
    npConcat l = .ok l.flatten := by
  unfold npConcat
  rw [if_neg (by simpa using hne)]

theorem npConcat_ne_nameError (l : List (List α)) : npConcat l ≠ .error .nameError := by
  unfold npConcat
  split <;> simp

theorem npConcatW_ne_nameError (l : List (Option (List ℚ))) :
    npConcatW l ≠ .error .nameError := by
  unfold npConcatW
  split
  · simp
  · split <;> simp

theorem npConcatW_error {l : List (Option (List ℚ))} {e : PyErr}
    (h : npConcatW l = .error e) : e = .valueError ∨ e = .typeError := by
  unfold npConcatW at h
  split at h
  · exact Or.inl (by simpa using h.symm)
  · split at h
    · simp at h
    · exact Or.inr (by simpa using h.symm)

theorem lastOrE_ok {l : List α} {v : α} (d : α) (h : lastOrE l = .ok v) :
    v = l.getLastD d := by
  unfold lastOrE at h
  rcases hl : l.getLast? with _ | a
  · rw [hl] at h; simp at h
  · rw [hl] at h
    simp only [Except.ok.injEq] at h
    rw [List.getLastD_eq_getLast?, hl, ← h]
    rfl

theorem mapM_loop_map_some (f : α → β) (L : List α) (acc : List β) :
    List.mapM.loop id (L.map (fun a => some (f a))) acc = some (acc.reverse ++ L.map f) := by
  induction L generalizing acc with
  | nil => simp [List.mapM.loop]
  | cons a t ih => simp [List.mapM.loop, ih]

theorem mapM_id_map_some (f : α → β) (L : List α) :
    (L.map (fun a => some (f a))).mapM id = some (L.map f) := by
  simpa [List.mapM] using mapM_loop_map_some f L []

/-- C1, counterexample: the claim "in every merge mode the stored fidelity
equals 1.0 iff every pooled record's Merged Tree prediction equals that
record's black-box label" is false.  In `binary_from_nari` mode, line 295
(`Yb = superT.predict(Z)`) overwrites the black-box labels with the tree's
own predictions before `superT.score(Z, Yb, ...)` is evaluated, so the call
below stores fidelity 1 although the tree predicts 1 on the pooled record
`[0]` while the black box labels it 0. -/
theorem c1_fidelity_counterexample :
    explain_instance_stable ⟨false, false, true, false, .fromNari, false⟩ oMismatch [0] [[[0]]]
      = .ok (⟨1, 1, 1⟩, ⟨[⟨[[0]], [0]⟩], [[0]], [1], some [1]⟩)
    ∧ oMismatch.superT [0] ≠ oMismatch.bb [0] := by
  constructor
  · norm_num [explain_instance_stable, oMismatch, npConcat, npConcatW, lastOrE, extremeGate,
      calculate_weights, raw_weights, normalized_weights, minZ, maxZ, score,
      weighted_score, matchWeight, accuracy_score, List.mapM, List.mapM.loop]
  · decide

/-- C1 (amended): for every `explain_instance_stable` call that returns an
Explanation, the stored fidelity lies in [0, 1] (assuming the sample
weights, when present, are positive and aligned with the scored records —
true of the default kernel); in every merge mode except
`binary_from_nari`, fidelity equals 1 iff every record actually scored has
Merged-Tree prediction equal to the black-box label paired with it (the
scored set is the pooled neighborhood in the n-ary and `binary_from_dts`
modes, and in `binary_from_bb` mode the pooled set only when a discretizer
is configured, else the last generated neighborhood); in
`binary_from_nari` mode the stored fidelity is identically 1, because the
labels are overwritten by the tree's own predictions before scoring. -/
theorem c1_fidelity_amended (cfg : LConfig) (o : LOracles) (x : Rec)
    (Z_list : List (List Rec)) (e : Explanation) (tr : ExpTrace)
    (h : explain_instance_stable cfg o x Z_list = .ok (e, tr))
    (hne : tr.scoredYb ≠ [])
    (hzlen : tr.scoredZ.length = tr.scoredYb.length)
    (hW : ∀ ws, tr.scoredW = some ws → (∀ v ∈ ws, 0 < v) ∧ ws.length = tr.scoredYb.length) :
    (0 ≤ e.fidelity ∧ e.fidelity ≤ 1)
    ∧ (cfg.mode ≠ .fromNari →
        (e.fidelity = 1 ↔ ∀ p ∈ tr.scoredYb.zip (tr.scoredZ.map o.superT), p.1 = p.2))
    ∧ (cfg.mode = .fromNari → e.fidelity = 1) := by
  obtain ⟨hfid, hnari, _⟩ := explain_ok_inv h
  rw [hfid]
  rcases hsw : tr.scoredW with _ | ws
  · simp only [score]
    refine ⟨⟨accuracy_score_nonneg _ _, accuracy_score_le_one _ _⟩, ?_, ?_⟩
    · intro _
      apply accuracy_score_eq_one_iff _ _ hne
      rw [List.length_map, hzlen]
    · intro hmode
      exact absurd hsw (hnari hmode).2
  · obtain ⟨hpos, hlen⟩ := hW ws hsw
    have hnn : ∀ v ∈ ws, (0 : ℚ) ≤ v := fun v hv => (hpos v hv).le
    simp only [score]
    have hwsne : ws ≠ [] := by
      intro h0
      rw [h0] at hlen
      exact hne (List.length_eq_zero.mp hlen.symm)
    refine ⟨⟨weighted_score_nonneg _ _ _ hnn, weighted_score_le_one _ _ _ hnn⟩, ?_, ?_⟩
    · intro _
      exact weighted_score_eq_one_iff ws _ _ hpos hwsne hlen
        (by rw [List.length_map, hzlen])
    · intro hmode
      obtain ⟨hyy, _⟩ := hnari hmode
      rw [hyy]
      refine (weighted_score_eq_one_iff ws _ _ hpos hwsne ?_ rfl).mpr (zip_self_eq _)
      rw [hlen, ← hyy]

/-- C1 witness for the amended theorem: a concrete `binary_from_dts` call
(one neighborhood `[[0]]`, agreeing tree and black box, unit weights) whose
stored fidelity is 1 and lies in [0, 1]. -/
theorem c1_fidelity_amended_witness :
    0 ≤ (Explanation.mk 0 0 1).fidelity ∧ (Explanation.mk 0 0 1).fidelity ≤ 1 :=
  (c1_fidelity_amended ⟨false, false, true, false, .fromDTs, false⟩ oAgree [0] [[[0]]]
    ⟨0, 0, 1⟩ ⟨[⟨[[0]], [0]⟩, ⟨[[0]], [0]⟩], [[0]], [0], some [1]⟩
    (by norm_num [explain_instance_stable, oAgree, npConcat, npConcatW, lastOrE, extremeGate,
      calculate_weights, raw_weights, normalized_weights, minZ, maxZ, score,
      weighted_score, matchWeight, accuracy_score, List.mapM, List.mapM.loop])
    (by decide) (by decide)
    (fun ws hws => by cases hws; exact ⟨by norm_num, by decide⟩)).1

/-- C2, counterexample: in `binary_from_bb` mode without a discretizer, the
single surrogate fit is NOT on the pooled concatenation of the generated
neighborhoods: with two neighborhoods `[[0]]` and `[[1]]`, the tree is fit
on the stale loop variables `Z`/`Yb` — the last neighborhood `[[1]]` with
its labels — not on the pooled data `[[0], [1]]` with pooled labels. -/
theorem c2_pooled_fit_counterexample :
    explain_instance_stable ⟨false, false, false, false, .fromBB, false⟩ oAgree
        [0] [[[0]], [[1]]]
      = .ok (⟨0, 0, 1⟩, ⟨[⟨[[1]], [0]⟩], [[1]], [0], none⟩)
    ∧ ([⟨[[1]], [0]⟩] : List FitEvent)
        ≠ [⟨([[[0]], [[1]]] : List (List Rec)).flatten,
            (([[[0]], [[1]]] : List (List Rec)).map (fun Z => Z.map oAgree.bb)).flatten⟩] := by
  constructor
  · norm_num [explain_instance_stable, oAgree, npConcat, npConcatW, lastOrE, extremeGate,
      calculate_weights, raw_weights, normalized_weights, minZ, maxZ, score,
      weighted_score, matchWeight, accuracy_score, List.mapM, List.mapM.loop]
  · decide

/-- C2 (amended): in `binary_from_bb` mode, `explain_instance_stable`
performs exactly one surrogate fit (the per-run fits are skipped); that fit
is on the pooled concatenation of the generated neighborhoods and their
pooled black-box labels only when a discretizer is configured (lines
232-233); without a discretizer it is on the last generated neighborhood
and that neighborhood's labels (the stale loop variables `Z` and `Yb`). -/
theorem c2_bb_fit_amended (cfg : LConfig) (o : LOracles) (x : Rec)
    (Z_list : List (List Rec)) (e : Explanation) (tr : ExpTrace)
    (hmode : cfg.mode = .fromBB)
    (h : explain_instance_stable cfg o x Z_list = .ok (e, tr)) :
    tr.fits.length = 1
    ∧ (cfg.hasDiscretizer = true →
        tr.fits = [⟨Z_list.flatten,
          ((if cfg.encdec then Z_list.map o.dec else Z_list).map
            (fun Z => Z.map o.bb)).flatten⟩])
    ∧ (cfg.hasDiscretizer = false →
        tr.fits = [⟨Z_list.getLastD [],
          ((if cfg.encdec then Z_list.map o.dec else Z_list).map
            (fun Z => Z.map o.bb)).getLastD []⟩]) := by
  obtain ⟨ml, ed, uw, hd, mode, ef⟩ := cfg
  simp only at hmode
  subst hmode
  simp only [explain_instance_stable] at h
  split at h
  · exact absurd h (by simp)
  simp only at h ⊢
  cases hd with
  | true =>
    split at h
    case _ Zc Ybc hZ hY =>
      simp only [Except.ok.injEq, Prod.mk.injEq] at h
      obtain ⟨_, ht⟩ := h
      subst ht
      try simp only at hZ hY
      refine ⟨rfl, fun _ => ?_, fun hcontra => by simp at hcontra⟩
      rw [npConcat_ok hZ, npConcat_ok hY]
    · simp at h
    · simp at h
  | false =>
    split at h
    case _ Zc Ybc hZ hY =>
      simp only [Except.ok.injEq, Prod.mk.injEq] at h
      obtain ⟨_, ht⟩ := h
      subst ht
      try simp only at hZ hY
      refine ⟨rfl, fun hcontra => by simp at hcontra, fun _ => ?_⟩
      rw [lastOrE_ok [] hZ, lastOrE_ok [] hY]
    · simp at h
    · simp at h

/-- C2 witness for the amended theorem: a concrete `binary_from_bb` call
with a discretizer and two neighborhoods, whose single fit is on the
pooled data; the trace holds exactly one fit event. -/
theorem c2_bb_fit_amended_witness :
    (ExpTrace.mk [⟨[[0], [1]], [0, 0]⟩] [[0], [1]] [0, 0] none).fits.length = 1 :=
  (c2_bb_fit_amended ⟨false, false, false, true, .fromBB, false⟩ oAgree [0] [[[0]], [[1]]]
    ⟨0, 0, 1⟩ ⟨[⟨[[0], [1]], [0, 0]⟩], [[0], [1]], [0, 0], none⟩ rfl
    (by norm_num [explain_instance_stable, oAgree, npConcat, npConcatW, lastOrE, extremeGate,
      calculate_weights, raw_weights, normalized_weights, minZ, maxZ, score,
      weighted_score, matchWeight, accuracy_score, List.mapM, List.mapM.loop])).1

/-- C3, counterexample: the claim "with extreme fidelity enabled, in every
merge mode, a mismatch between the Merged Tree's prediction for the
instance and the black box's prediction raises" is false: the check at
lines 301-304 sits inside the n-ary/`binary_from_nari` branch only.  The
`binary_from_bb` call below has `extreme_fidelity` enabled, an encoder
configured, and a tree that contradicts the black box on the instance, yet
it returns an `Explanation` (with fidelity 0) instead of raising. -/
theorem c3_extreme_counterexample :
    explain_instance_stable ⟨false, true, false, false, .fromBB, true⟩ oMismatch [0] [[[0]]]
      = .ok (⟨0, 1, 0⟩, ⟨[⟨[[0]], [0]⟩], [[0]], [0], none⟩)
    ∧ oMismatch.superT (oMismatch.enc [0] (oMismatch.bb [0])) ≠ oMismatch.bb [0] := by
  constructor
  · norm_num [explain_instance_stable, oMismatch, npConcat, npConcatW, lastOrE, extremeGate,
      calculate_weights, raw_weights, normalized_weights, minZ, maxZ, score,
      weighted_score, matchWeight, accuracy_score, List.mapM, List.mapM.loop]
  · decide

/-- C3 (amended): the extreme-fidelity check runs only in the default
n-ary and `binary_from_nari` merge modes.  In those modes, with an encoder
configured and extreme fidelity enabled, a call whose Merged-Tree
prediction for the (encoded) instance differs from the black-box
prediction for the instance raises an error and returns no Explanation
(the mismatch raise at line 304, or an earlier runtime error on the same
path); in `binary_from_bb` and `binary_from_dts` modes no check occurs. -/
theorem c3_extreme_amended (cfg : LConfig) (o : LOracles) (x : Rec)
    (Z_list : List (List Rec))
    (hmode : cfg.mode = .nary ∨ cfg.mode = .fromNari)
    (hef : cfg.extremeFidelity = true) (hed : cfg.encdec = true)
    (hmis : o.superT (o.enc x (o.bb x)) ≠ o.bb x) :
    isOkE (explain_instance_stable cfg o x Z_list) = false := by
  obtain ⟨ml, ed, uw, hd, mode, ef⟩ := cfg
  simp only at hmode hef hed
  subst hef; subst hed
  have hgate : ∀ (c : LConfig), c.extremeFidelity = true → ∀ r,
      extremeGate c o (some (o.bb x)) (o.enc x (o.bb x)) r = .error .fidelityMismatch := by
    intro c hc r
    simp [extremeGate, hc, hmis]
  cases ml with
  | true => simp [explain_instance_stable, isOkE]
  | false =>
    rcases hmode with hmode | hmode <;> subst hmode <;>
      (simp only [explain_instance_stable, Bool.false_eq_true, if_false, reduceIte]
       split <;> first | (rw [hgate _ rfl]; rfl) | rfl)

/-- C3 witness for the amended theorem: a concrete n-ary call with an
encoder, extreme fidelity enabled and a mismatching tree returns no
Explanation. -/
theorem c3_extreme_amended_witness :
    isOkE (explain_instance_stable ⟨false, true, true, false, .nary, true⟩ oMismatch
      [0] [[[0]]]) = false :=
  c3_extreme_amended ⟨false, true, true, false, .nary, true⟩ oMismatch [0] [[[0]]]
    (Or.inl rfl) rfl rfl (by decide)

/-- C10: in the default n-ary merge mode with extreme fidelity enabled,
an encoder/decoder is an implicit precondition: the comparison variable
`y` is assigned only on the encoding path (line 177), so with no encoder
the check at line 303 reads a never-assigned variable (`NameError`, no
Explanation), for every choice of discretizer flag, neighborhoods
(non-empty list of runs) and collaborators; with an encoder configured the
same call shape never fails that way. -/
theorem c10_encdec_precondition (o : LOracles) (x : Rec) (Z_list : List (List Rec))
    (d d2 : Bool) (hne : Z_list ≠ []) :
    explain_instance_stable ⟨false, false, true, d, .nary, true⟩ o x Z_list
      = .error .nameError
    ∧ explain_instance_stable ⟨false, true, true, d2, .nary, true⟩ o x Z_list
      ≠ .error .nameError := by
  constructor
  · have hYb : (Z_list.map (fun Z => Z.map o.bb)) ≠ [] := by simp [hne]
    cases d with
    | false =>
      simp only [explain_instance_stable, Bool.false_eq_true, if_false, reduceIte]
      rw [npConcat_ne_empty _ hne, npConcat_ne_empty _ hYb]
      simp only [npConcatW, mapM_id_map_some]
      rw [if_neg (by simp [hne])]
      simp [extremeGate]
    | true =>
      have hZ2 : Z_list.map o.discr ≠ [] := by simp [hne]
      simp only [explain_instance_stable, Bool.false_eq_true, if_false, reduceIte]
      rw [npConcat_ne_empty _ hZ2, npConcat_ne_empty _ hYb]
      simp only [npConcatW, mapM_id_map_some]
      rw [if_neg (by simp [hne])]
      simp [extremeGate]
  · intro hcontra
    have h2 : ∀ r, extremeGate ⟨false, true, true, d2, .nary, true⟩ o (some (o.bb x))
        (o.enc x (o.bb x)) r ≠ .error .nameError := by
      intro r
      simp only [extremeGate]
      split
      · split <;> simp
      · simp
    simp only [explain_instance_stable, Bool.false_eq_true, if_false, reduceIte] at hcontra
    split at hcontra <;>
      first
        | exact h2 _ hcontra
        | simp_all [npConcat_ne_nameError, npConcatW_ne_nameError]

/-- C10 witness: a concrete n-ary, extreme-fidelity call without encoder
fails with the unbound-variable error, while the encoder-configured
variant does not. -/
theorem c10_encdec_precondition_witness :
    explain_instance_stable ⟨false, false, true, false, .nary, true⟩ oAgree [0] [[[0]]]
      = .error .nameError :=
  (c10_encdec_precondition oAgree [0] [[[0]]] false false (by decide)).1

/-- C5, counterexample: the claim "normalization is skipped exactly when
all values lie in [0, 1] with both 0 and 1 occurring" is false.  For
`Z = [[0], [5]]` the value 5 is outside [0, 1], so the claim requires
normalization; but the source condition `np.max(Z) != 1 and np.min(Z) != 0`
is false (the minimum is 0), so `__calculate_weights__` computes the
weights from the raw, unnormalized distances, which differ from the
normalized ones (kernel instantiated with the identity, metric with the
squared Euclidean distance, making the weights directly observable). -/
theorem c5_normalization_counterexample :
    ¬ spec_skip_normalization [[0], [5]]
    ∧ calculate_weights (id : ℚ → ℚ) sqdist [[0], [5]] = raw_weights id sqdist [[0], [5]]
    ∧ raw_weights (id : ℚ → ℚ) sqdist [[0], [5]]
        ≠ normalized_weights id sqdist [[0], [5]] := by
  refine ⟨?_, ?_, ?_⟩
  · rintro ⟨hall, -, -⟩
    have h5 := (hall 5 (by simp)).2
    norm_num at h5
  · rw [calculate_weights, if_neg]
    norm_num [minZ, maxZ]
  · norm_num [raw_weights, normalized_weights, normalizeZ, minZ, maxZ, sqdist]

/-- C5 (amended): `__calculate_weights__` min-max normalizes `Z` before
computing distances to the anchor exactly when `max(Z) ≠ 1` and
`min(Z) ≠ 0`; normalization is skipped exactly when `max(Z) = 1` or
`min(Z) = 0`, regardless of whether the values lie in [0, 1]. -/
theorem c5_normalization_amended (kernel : α → β) (dist : Rec → Rec → α) (Z : List Rec) :
    (maxZ Z ≠ 1 ∧ minZ Z ≠ 0 →
      calculate_weights kernel dist Z = normalized_weights kernel dist Z)
    ∧ (maxZ Z = 1 ∨ minZ Z = 0 →
      calculate_weights kernel dist Z = raw_weights kernel dist Z) := by
  constructor
  · intro h
    rw [calculate_weights, if_pos h]
  · intro h
    rw [calculate_weights, if_neg]
    tauto

/-- C5 witness for the amended theorem: on `Z = [[0], [5]]` the minimum is
0, so the skip branch is taken and the weights are the raw-distance ones. -/
theorem c5_normalization_amended_witness :
    calculate_weights (id : ℚ → ℚ) sqdist [[0], [5]] = raw_weights id sqdist [[0], [5]] :=
  (c5_normalization_amended id sqdist [[0], [5]]).2 (Or.inr (by norm_num [minZ]))

theorem mem_calculate_weights {kernel : α → β} {dist : Rec → Rec → α} {Z : List Rec}
    {v : β} (hv : v ∈ calculate_weights kernel dist Z) : ∃ d, v = kernel d := by
  unfold calculate_weights normalized_weights raw_weights at hv
  split at hv <;> simp only [List.mem_map] at hv <;>
    obtain ⟨d, -, rfl⟩ := hv <;> exact ⟨d, rfl⟩

/-- C6: with the default kernel `sqrt(exp(-(d^2)/width^2))` and any nonzero
kernel width, every weight computed by `__calculate_weights__` lies in
`[0, 1]` (for any neighborhood and any metric); the kernel value is a
strictly decreasing function of the distance `d ≥ 0` for fixed width; and
the default width `0.75 * sqrt(#features)` is a valid (nonzero) width
whenever there is at least one feature. -/
theorem c6_default_kernel_weights (dist : Rec → Rec → ℝ) (Z : List Rec) (width : ℝ)
    (hw : width ≠ 0) :
    (∀ v ∈ calculate_weights (fun d => default_kernel d width) dist Z, 0 ≤ v ∧ v ≤ 1)
    ∧ (∀ d1 d2 : ℝ, 0 ≤ d1 → d1 < d2 → default_kernel d2 width < default_kernel d1 width)
    ∧ (∀ F : ℕ, 1 ≤ F → default_kernel_width F ≠ 0) := by
  have hw2 : (0 : ℝ) < width ^ 2 := by positivity
  have hbound : ∀ d : ℝ, 0 ≤ default_kernel d width ∧ default_kernel d width ≤ 1 := by
    intro d
    refine ⟨Real.sqrt_nonneg _, ?_⟩
    apply Real.sqrt_le_one.mpr
    rw [Real.exp_le_one_iff]
    apply div_nonpos_of_nonpos_of_nonneg
    · simpa using sq_nonneg d
    · exact hw2.le
  refine ⟨?_, ?_, ?_⟩
  · intro v hv
    obtain ⟨d, rfl⟩ := mem_calculate_weights hv
    exact hbound d
  · intro d1 d2 h0 hlt
    unfold default_kernel
    apply Real.sqrt_lt_sqrt (Real.exp_nonneg _)
    rw [Real.exp_lt_exp]
    have hsq : d1 ^ 2 < d2 ^ 2 := by
      apply pow_lt_pow_left₀ hlt h0
      norm_num
    have hneg : -(d2 ^ 2) < -(d1 ^ 2) := by linarith
    exact div_lt_div_of_pos_right hneg hw2
  · intro F hF
    have hFpos : (0 : ℝ) < Real.sqrt F := by
      apply Real.sqrt_pos.mpr
      exact_mod_cast Nat.lt_of_lt_of_le Nat.zero_lt_one hF
    unfold default_kernel_width
    exact ne_of_gt (mul_pos hFpos (by norm_num))

/-- C6 witness: at width 1 the default kernel strictly decreases from
distance 0 to distance 1. -/
theorem c6_default_kernel_weights_witness : default_kernel 1 1 < default_kernel 0 1 :=
  (c6_default_kernel_weights (fun _ _ => 0) [] 1 one_ne_zero).2.1 0 1 le_rfl zero_lt_one

/-- A leaf-assignment function for the selector evaluations: records whose
first feature is at most 1 share the instance's leaf, the rest do not. -/
def dtLeaf : Rec → ℕ := fun r => if r.headD 0 ≤ 1 then 0 else 1

/-- C4, failing evaluation: on the population `[[0], [1], [2]]` with
instance `[0]` and requested count 1, the exemplar partition (`[[1]]` after
removing the instance) and the counter-exemplar partition (`[[2]]`) are
both non-empty, yet `get_exemplars_cexemplars_binary` returns the whole
exemplar partition and NO counter-exemplars: the `else` branch at lines
396-402 returns `(exemplars, None)` whenever the exemplar partition is
non-empty, making the symmetric-cap code at lines 404-418 unreachable.
The `supert` variant at the same input returns the claimed
`(top-1 exemplars, top-1 counter-exemplars)`. -/
theorem c4_binary_selector_eval :
    get_exemplars_cexemplars_binary dtLeaf [[0], [1], [2]] [0] 1 = (some [[1]], none)
    ∧ ([[0], [1], [2]] : List Rec).filter (fun r => decide (dtLeaf r ≠ dtLeaf [0])) = [[2]]
    ∧ get_exemplars_cexemplars_supert dtLeaf [[0], [1], [2]] [0] 1 = ([[1]], [[2]]) := by
  refine ⟨?_, by decide, ?_⟩ <;>
    norm_num [get_exemplars_cexemplars_binary, get_exemplars_cexemplars_supert, dtLeaf,
      sortByDist, List.insertionSort, List.orderedInsert, sqdist]

/-- C7: neither exemplar selector ever returns a record exactly equal to
the explained instance among the exemplars: the `np.where`/`np.delete`
pair removes every row equal to `x` before ranking, in both the
binary-tree and the merged n-ary variants. -/
theorem c7_exemplars_exclude_instance (dt_apply : Rec → ℕ) (K : List Rec) (x : Rec)
    (n : ℕ) :
    (∀ exs cexs, get_exemplars_cexemplars_binary dt_apply K x n = (some exs, cexs) →
      ∀ r ∈ exs, r ≠ x)
    ∧ (∀ r ∈ (get_exemplars_cexemplars_supert dt_apply K x n).1, r ≠ x) := by
  constructor
  · intro exs cexs h r hr
    simp only [get_exemplars_cexemplars_binary] at h
    split at h
    · simp at h
    split at h
    · simp at h
    · simp only [Prod.mk.injEq, Option.some.injEq] at h
      obtain ⟨hex, -⟩ := h
      subst hex
      rw [sortByDist, List.mem_insertionSort] at hr
      have := (List.mem_filter.mp hr).2
      simpa using this
  · intro r hr
    simp only [get_exemplars_cexemplars_supert] at hr
    have hr2 := List.take_subset _ _ hr
    rw [sortByDist, List.mem_insertionSort] at hr2
    have := (List.mem_filter.mp hr2).2
    simpa using this

/-- C7 witness: on the population `[[0], [1]]` with every record in the
instance's leaf, the binary selector returns exemplars `[[1]]`, and the
record `[1]` differs from the instance `[0]`. -/
theorem c7_exemplars_exclude_instance_witness : ([1] : Rec) ≠ [0] :=
  (c7_exemplars_exclude_instance (fun _ => 0) [[0], [1]] [0] 5).1 [[1]] none
    (by norm_num [get_exemplars_cexemplars_binary, sortByDist, List.insertionSort,
      List.orderedInsert])
    [1] (by decide)

theorem dropLast_cons_ne_nil {a : α} {l : List α} (h : l ≠ []) :
    (a :: l).dropLast = a :: l.dropLast := by
  cases l with
  | nil => exact absurd rfl h
  | cons b t => rfl

theorem getLast?_cons_ne_nil {a : α} {l : List α} (h : l ≠ []) :
    (a :: l).getLast? = l.getLast? := by
  cases l with
  | nil => exact absurd rfl h
  | cons b t => exact List.getLast?_cons_cons

theorem items_pos (N W : ℕ) (hN : 1 ≤ N) (hW : 1 ≤ W) : 1 ≤ items_for_worker N W := by
  rw [items_for_worker, Nat.one_le_div_iff hW]
  omega

theorem items_mul_ge (N W : ℕ) (hW : 1 ≤ W) : N ≤ W * items_for_worker N W := by
  have h1 := Nat.div_add_mod (N + W - 1) W
  have h2 : (N + W - 1) % W < W := Nat.mod_lt _ hW
  rw [items_for_worker]
  set q := (N + W - 1) / W with hq
  set r := (N + W - 1) % W with hr
  set m := W * q with hm
  omega

theorem dispatch_loop_spec (N items : ℕ) (hit : 1 ≤ items) :
    ∀ fuel start, start < N → N ≤ start + fuel * items →
      (((dispatch_loop N items fuel start).map
          (fun p => List.range' p.1 (chunk_size N p))).flatten
        = List.range' start (N - start))
      ∧ (dispatch_loop N items fuel start).length ≤ fuel
      ∧ (∀ p ∈ (dispatch_loop N items fuel start).dropLast, chunk_size N p = items)
      ∧ (∀ p, (dispatch_loop N items fuel start).getLast? = some p →
          chunk_size N p ≤ items ∧ N ≤ p.2) := by
  intro fuel
  induction fuel with
  | zero =>
    intro start h1 h2
    exact absurd h2 (by omega)
  | succ f ih =>
    intro start h1 h2
    rw [dispatch_loop]
    by_cases hbr : (N : ℤ) - 1 < ((start + items : ℕ) : ℤ)
    · rw [if_pos hbr]
      have hNle : N ≤ start + items := by omega
      refine ⟨?_, by simp, by simp, ?_⟩
      · simp only [List.map_cons, List.map_nil, List.flatten_cons, List.flatten_nil,
          List.append_nil]
        have hcs : chunk_size N (start, start + items) = N - start := by
          simp only [chunk_size]
          omega
        rw [hcs]
      · intro p hp
        simp only [List.getLast?_singleton, Option.some.injEq] at hp
        subst hp
        constructor
        · simp only [chunk_size]
          omega
        · exact hNle
    · rw [if_neg hbr]
      have hlt : start + items < N := by omega
      have hf : N ≤ (start + items) + f * items := by
        have hmul : (f + 1) * items = items + f * items := by ring
        rw [hmul] at h2
        omega
      obtain ⟨ihj, ihlen, ihdrop, ihlast⟩ := ih (start + items) hlt hf
      have hLne : dispatch_loop N items f (start + items) ≠ [] := by
        intro h0
        rw [h0] at ihj
        simp only [List.map_nil, List.flatten_nil] at ihj
        rw [eq_comm, List.range'_eq_nil] at ihj
        omega
      refine ⟨?_, ?_, ?_, ?_⟩
      · simp only [List.map_cons, List.flatten_cons, ihj]
        have hsz : chunk_size N (start, start + items) = items := by
          simp only [chunk_size]
          omega
        rw [hsz]
        have happ := List.range'_append start items (N - (start + items)) 1
        simp only [Nat.one_mul] at happ
        rw [happ]
        congr 1
        omega
      · simp only [List.length_cons]
        omega
      · rw [dropLast_cons_ne_nil hLne]
        intro p hp
        rcases List.mem_cons.mp hp with h | h
        · subst h
          simp only [chunk_size]
          omega
        · exact ihdrop p h
      · rw [getLast?_cons_ne_nil hLne]
        exact ihlast

/-- C8: for `N ≥ 1` instances and `W ≥ 1` workers, the slices dispatched by
`explain_set_instances_stable` partition the index range `[0, N)` exactly —
every instance is assigned to exactly one spawned worker, in order, none
skipped and none duplicated — into at most `W` contiguous chunks, each of
size `ceil(N / W)` except the last dispatched chunk, which may be
smaller. -/
theorem c8_batch_dispatch (N W : ℕ) (hN : 1 ≤ N) (hW : 1 ≤ W) :
    ((dispatch_chunks N W).map (fun p => List.range' p.1 (chunk_size N p))).flatten
      = List.range N
    ∧ (dispatch_chunks N W).length ≤ W
    ∧ (∀ p ∈ (dispatch_chunks N W).dropLast, chunk_size N p = items_for_worker N W)
    ∧ (∀ p, (dispatch_chunks N W).getLast? = some p →
        chunk_size N p ≤ items_for_worker N W) := by
  have hit := items_pos N W hN hW
  have hcov : N ≤ 0 + W * items_for_worker N W := by
    simpa using items_mul_ge N W hW
  obtain ⟨hj, hlen, hdrop, hlast⟩ :=
    dispatch_loop_spec N (items_for_worker N W) hit W 0 (by omega) hcov
  refine ⟨?_, hlen, hdrop, fun p hp => (hlast p hp).1⟩
  rw [List.range_eq_range']
  simpa using hj

/-- C8 witness: 5 instances over 2 workers are dispatched as the chunks
`X[0:3]` and `X[3:6]`, which cover indices 0..4 exactly. -/
theorem c8_batch_dispatch_witness :
    ((dispatch_chunks 5 2).map (fun p => List.range' p.1 (chunk_size 5 p))).flatten
      = List.range 5 :=
  (c8_batch_dispatch 5 2 (by norm_num) (by norm_num)).1

/-- C9, failing evaluation: with one instance and one worker the dispatcher
spawns one worker process but joins none of them: `workers` is set to
`n_workers - 1` at the (always taken) break, so the join loop runs over
`range(0, 0)` and the dispatcher returns without joining the process it
started.  (More generally, exactly `W - 1` join attempts are made however
many processes were spawned; with fewer than `W - 1` spawned, e.g. one
instance and three workers, the join loop stops with an `IndexError` after
joining only the spawned ones.) -/
theorem c9_join_divergence :
    spawned_count 1 1 = 1 ∧ joined_workers 1 1 = []
    ∧ spawned_count 1 3 = 1 ∧ joined_workers 1 3 = [0] := by
  refine ⟨by decide, by decide, by decide, by decide⟩

end LoreSa
